import Mathlib

/-!
Shallow embedding of the `dispatcher` Go package (itinerary reconstruction
via a degree-checked variant of Hierholzer's algorithm) and proofs about it.

Conventions of the embedding:
* Go `[][]string` input becomes `List (List String)`; indexing `ticket[0]`,
  `ticket[1]` is modelled with `List.getElem?`, and an out-of-range access
  is modelled by the `GoResult.panic` outcome.
* Go maps keyed by `string` are modelled as association lists (for the
  mutable adjacency map consumed by the walk) or as counting functions plus
  an explicit key list (for the degree tables); a missing key reads as the
  zero value, exactly as in Go.
* Go `string` comparison (byte-wise lexicographic `>`) is modelled by
  `lexLt` on the underlying character lists; UTF-8 byte order agrees with
  code-point order, so this is the same order.
* The unordered `range` iteration over the two degree maps is modelled by
  passing an explicit key list to `findStartingPoint` / `validateEndPoints`;
  `ReconstructItinerary` fixes a canonical order and a separate theorem
  shows the result is the same for every permutation of the keys.
* The walk loop of `findPath` is modelled with explicit fuel
  (`2 * edgeCount + 2` suffices, as proved below), keeping every
  definition kernel-computable.
-/

namespace Dispatcher

/-- The three error sentinels of the Go package. -/
inductive Err where
  | multipleSameDestination : Err
  | cycleInItinerary : Err
  | differentStartingPoints : Err
deriving DecidableEq, Repr

/-- Outcome of `ReconstructItinerary`: a successful itinerary, one of the
three classified errors, or a runtime panic (out-of-range ticket index). -/
inductive GoResult where
  | ok (itinerary : List String) : GoResult
  | err (e : Err) : GoResult
  | panic : GoResult
deriving DecidableEq, Repr

/-- Lexicographic strict order on character lists, comparing code points;
this models Go's byte-wise `<` on strings (UTF-8 byte order and code-point
order coincide). -/
def lexLt : List Char → List Char → Bool
  | [], [] => false
  | [], _ :: _ => true
  | _ :: _, [] => false
  | c :: cs, d :: ds =>
    if c.toNat < d.toNat then true
    else if d.toNat < c.toNat then false
    else lexLt cs ds

/-- Go's `s1 < s2` on strings. -/
def strLt (a b : String) : Bool := lexLt a.data b.data

/-- Insert into a descending-sorted list, keeping it descending; this is the
building block used to model `sort.Slice(graph[src], func(i, j) { return
graph[src][i] > graph[src][j] })`. -/
def insertDesc (a : String) : List String → List String
  | [] => [a]
  | b :: bs => if strLt b a then a :: b :: bs else b :: insertDesc a bs

/-- Descending lexicographic sort of an adjacency list, modelling the
reversed `sort.Slice` call in `buildGraph`. -/
def sortDesc : List String → List String
  | [] => []
  | x :: xs => insertDesc x (sortDesc xs)

/-- Reads `ticket[0]` and `ticket[1]`; `none` models the Go panic on a
ticket with fewer than two entries. -/
def tkey (t : List String) : Option (String × String) :=
  match t[0]?, t[1]? with
  | some s, some d => some (s, d)
  | _, _ => none

/-- Reads every ticket's source and destination, as `buildGraph` does. -/
def toPairs : List (List String) → Option (List (String × String))
  | [] => some []
  | t :: ts =>
    match tkey t, toPairs ts with
    | some p, some ps => some (p :: ps)
    | _, _ => none

/-- The scanning loop of `validateTickets`: `seen` holds the keys whose
count is already 1, so a key hitting `seen` is the count becoming 2. -/
def validateLoop (seen : List (String × String)) :
    List (List String) → Option (Except Err Unit)
  | [] => some (.ok ())
  | t :: rest =>
    match tkey t with
    | none => none
    | some k =>
      if k ∈ seen then some (.error Err.multipleSameDestination)
      else validateLoop (k :: seen) rest

/-- Go `validateTickets`: rejects a repeated identical (source, destination)
pair. -/
def validateTickets (tickets : List (List String)) : Option (Except Err Unit) :=
  validateLoop [] tickets

/-- The adjacency map `map[string][]string`, as an association list with
pairwise-distinct keys. -/
abbrev Graph := List (String × List String)

/-- Go map read `graph[curr]`; a missing key reads as the nil slice. -/
def lookupG : Graph → String → List String
  | [], _ => []
  | p :: ps, k => if p.1 = k then p.2 else lookupG ps k

/-- Go map write `graph[curr] = v` for a key already present. -/
def updateG : Graph → String → List String → Graph
  | [], _, _ => []
  | p :: ps, k, v => if p.1 = k then (k, v) :: ps else p :: updateG ps k v

/-- Appends one destination to the source's adjacency list, creating the
entry if the source is new — the insertion step of `buildGraph`. -/
def appendEdge : Graph → String → String → Graph
  | [], s, d => [(s, [d])]
  | p :: ps, s, d =>
    if p.1 = s then (p.1, p.2 ++ [d]) :: ps else p :: appendEdge ps s d

/-- The insertion loop of `buildGraph` (before sorting). -/
def buildAdj (pairs : List (String × String)) : Graph :=
  pairs.foldl (fun g p => appendEdge g p.1 p.2) []

/-- Go `buildGraph`'s adjacency result: insert every ticket, then sort each
node's destination list in descending order. -/
def buildGraph (pairs : List (String × String)) : Graph :=
  (buildAdj pairs).map (fun p => (p.1, sortDesc p.2))

/-- The out-degree table: `outDegree[n]` counts tickets whose source is `n`
(0 when the key is absent, as in Go). Values are `Int` since the Go code
subtracts them. -/
def outDeg (pairs : List (String × String)) (n : String) : Int :=
  (pairs.countP (fun p => decide (p.1 = n)) : Nat)

/-- The in-degree table: `inDegree[n]` counts tickets whose destination is
`n`. -/
def inDeg (pairs : List (String × String)) (n : String) : Int :=
  (pairs.countP (fun p => decide (p.2 = n)) : Nat)

/-- The key set of the out-degree map, in a canonical order. -/
def outKeysOf (pairs : List (String × String)) : List String :=
  (pairs.map Prod.fst).dedup

/-- The key set of the in-degree map, in a canonical order. -/
def inKeysOf (pairs : List (String × String)) : List String :=
  (pairs.map Prod.snd).dedup

/-- The candidate-collecting loop of `findStartingPoint`: walks the
out-degree keys, collecting nodes with `outDegree - inDegree == 1` and
aborting (second component `false`) on an imbalance beyond ±1. -/
def fspLoop (oD iD : String → Int) (acc : List String) :
    List String → List String × Bool
  | [] => (acc, true)
  | n :: rest =>
    let diff := oD n - iD n
    if diff = 1 then fspLoop oD iD (acc ++ [n]) rest
    else if diff < -1 ∨ 1 < diff then (acc, false)
    else fspLoop oD iD acc rest

/-- Go `findStartingPoint` over a given iteration order of the out-degree
keys. The final balanced-graph scan of the Go code returns the same error
in both of its branches and is mirrored here. -/
def findStartingPoint (oD iD : String → Int) (keys : List String) :
    Except Err String :=
  if (fspLoop oD iD [] keys).2 = false ∨ 1 < (fspLoop oD iD [] keys).1.length then
    .error .differentStartingPoints
  else if (fspLoop oD iD [] keys).1.length = 1 then
    .ok ((fspLoop oD iD [] keys).1.headD "")
  else if keys.all (fun n => decide (oD n = iD n)) then
    .error .differentStartingPoints
  else .error .differentStartingPoints

/-- The counting loop of `validateEndPoints`: walks the in-degree keys,
counting nodes with `inDegree - outDegree == 1` and failing on an imbalance
beyond ±1. -/
def vepLoop (oD iD : String → Int) (cnt : Nat) :
    List String → Except Err Nat
  | [] => .ok cnt
  | n :: rest =>
    let diff := iD n - oD n
    if diff = 1 then vepLoop oD iD (cnt + 1) rest
    else if diff < -1 ∨ 1 < diff then .error .differentStartingPoints
    else vepLoop oD iD cnt rest

/-- Go `validateEndPoints` over a given iteration order of the in-degree
keys. -/
def validateEndPoints (startCandidates : List String) (oD iD : String → Int)
    (keys : List String) : Except Err Unit :=
  match vepLoop oD iD 0 keys with
  | .error e => .error e
  | .ok endCandidates =>
    if startCandidates.length = 1 ∧ endCandidates ≠ 1 then
      .error .differentStartingPoints
    else .ok ()

/-- Total number of edges left in the adjacency map. -/
def edgeCount (g : Graph) : Nat := (g.map (fun p => p.2.length)).sum

/-- The stack loop of `findPath`, with explicit fuel. The stack's head is
its top. Each iteration either consumes the tail edge of the top node's
adjacency list and pushes that destination, or pops the top node onto the
result. Returns the result in pop order, the final graph, and the number of
iterations executed; `none` means the fuel ran out. -/
def walkLoopF : Nat → Graph → List String → List String →
    Option (List String × Graph × Nat)
  | 0, _, _, _ => none
  | fuel + 1, g, stack, res =>
    match stack with
    | [] => some (res, g, 0)
    | curr :: rest =>
      let dests := lookupG g curr
      let step :=
        if dests ≠ [] then
          walkLoopF fuel (updateG g curr dests.dropLast)
            (dests.getLastD "" :: curr :: rest) res
        else
          walkLoopF fuel g rest (res ++ [curr])
      step.map (fun r => (r.1, r.2.1, r.2.2 + 1))

/-- Go `findPath`: run the walk from `start` (fuel `2 * edgeCount g + 2`
always suffices, as proved below) and reverse the pop-order result. -/
def findPath (start : String) (g : Graph) : List String :=
  match walkLoopF (2 * edgeCount g + 2) g [start] [] with
  | some r => r.1.reverse
  | none => []

/-- Go `ReconstructItinerary`, parametrised by the iteration order used for
the two unordered map `range` loops (`oKeys` for the out-degree map in
`findStartingPoint`, `iKeys` for the in-degree map in
`validateEndPoints`). -/
def ReconstructItineraryWith (tickets : List (List String))
    (oKeys iKeys : List String) : GoResult :=
  if tickets.length = 0 then .ok []
  else
    match validateTickets tickets with
    | none => .panic
    | some (.error e) => .err e
    | some (.ok _) =>
      match toPairs tickets with
      | none => .panic
      | some pairs =>
        match findStartingPoint (outDeg pairs) (inDeg pairs) oKeys with
        | .error e => .err e
        | .ok start =>
          match validateEndPoints [start] (outDeg pairs) (inDeg pairs) iKeys with
          | .error e => .err e
          | .ok _ =>
            let result := findPath start (buildGraph pairs)
            if 2 ≤ result.length ∧ result.headD "" = result.getLastD "" then
              .err .cycleInItinerary
            else .ok result

/-- The pairs read from the tickets (empty on malformed input; only used to
fix a canonical key order). -/
def pairsOf (tickets : List (List String)) : List (String × String) :=
  (toPairs tickets).getD []

/-- Go `ReconstructItinerary` at the canonical key order. -/
def ReconstructItinerary (tickets : List (List String)) : GoResult :=
  ReconstructItineraryWith tickets (outKeysOf (pairsOf tickets))
    (inKeysOf (pairsOf tickets))

/-- Encodes a list of (source, destination) pairs as the Go `[][]string`
argument. -/
def encodeTickets (pairs : List (String × String)) : List (List String) :=
  pairs.map (fun p => [p.1, p.2])

/-- Go `min` of two strings under the byte-wise order. -/
def minStr (a b : String) : String := if strLt b a then b else a

/-- The lexicographically smallest element of a list (defaulting to `""` on
the empty list, which never occurs at a use site). -/
def listMin : List String → String
  | [] => ""
  | [x] => x
  | x :: y :: t => minStr x (listMin (y :: t))

/-- Removes the first occurrence of an element. -/
def eraseFirst : List String → String → List String
  | [], _ => []
  | x :: xs, a => if x = a then xs else x :: eraseFirst xs a

/-- A variant of the walk loop that, at every choice point, explicitly
consumes the lexicographically smallest remaining destination of the top
node. The tie-break theorem shows the Go walk coincides with it. -/
def walkMinLoopF : Nat → Graph → List String → List String →
    Option (List String × Graph × Nat)
  | 0, _, _, _ => none
  | fuel + 1, g, stack, res =>
    match stack with
    | [] => some (res, g, 0)
    | curr :: rest =>
      let dests := lookupG g curr
      let step :=
        if dests ≠ [] then
          walkMinLoopF fuel (updateG g curr (eraseFirst dests (listMin dests)))
            (listMin dests :: curr :: rest) res
        else
          walkMinLoopF fuel g rest (res ++ [curr])
      step.map (fun r => (r.1, r.2.1, r.2.2 + 1))

/-- `findPath` built on the smallest-destination-first walk. -/
def findPathMin (start : String) (g : Graph) : List String :=
  match walkMinLoopF (2 * edgeCount g + 2) g [start] [] with
  | some r => r.1.reverse
  | none => []

/-- The whole pipeline with the walk replaced by the explicit
smallest-destination-first walk. -/
def ReconstructItineraryMin (tickets : List (List String)) : GoResult :=
  if tickets.length = 0 then .ok []
  else
    match validateTickets tickets with
    | none => .panic
    | some (.error e) => .err e
    | some (.ok _) =>
      match toPairs tickets with
      | none => .panic
      | some pairs =>
        match findStartingPoint (outDeg pairs) (inDeg pairs)
            (outKeysOf pairs) with
        | .error e => .err e
        | .ok start =>
          match validateEndPoints [start] (outDeg pairs) (inDeg pairs)
              (inKeysOf pairs) with
          | .error e => .err e
          | .ok _ =>
            let result := findPathMin start (buildGraph pairs)
            if 2 ≤ result.length ∧ result.headD "" = result.getLastD "" then
              .err .cycleInItinerary
            else .ok result

/-- Consecutive pairs of a stop sequence — the tickets it uses, in order. -/
def consecPairs : List String → List (String × String)
  | a :: b :: rest => (a, b) :: consecPairs (b :: rest)
  | _ => []

/-- `seq` is an Eulerian trail using exactly the given tickets: its
consecutive pairs are a permutation of the ticket list. -/
def IsTrailOf (pairs : List (String × String)) (seq : List String) : Prop :=
  (consecPairs seq).Perm pairs

/-- Lexicographic order on stop sequences (strings compared byte-wise). -/
def listLexLt : List String → List String → Bool
  | [], [] => false
  | [], _ :: _ => true
  | _ :: _, [] => false
  | a :: as, b :: bs =>
    if strLt a b then true
    else if strLt b a then false
    else listLexLt as bs

/-- All nodes appearing in the ticket list (sources and destinations). -/
def nodesOf (pairs : List (String × String)) : List String :=
  (pairs.map Prod.fst ++ pairs.map Prod.snd).dedup

/-- Number of start candidates: nodes with `outDegree - inDegree = 1`. -/
def startCount (pairs : List (String × String)) : Nat :=
  (nodesOf pairs).countP (fun n => decide (outDeg pairs n - inDeg pairs n = 1))

/-- Number of end candidates: nodes with `inDegree - outDegree = 1`. -/
def endCount (pairs : List (String × String)) : Nat :=
  (nodesOf pairs).countP (fun n => decide (inDeg pairs n - outDeg pairs n = 1))

/-- Every adjacency list of the graph is strictly descending. -/
def GraphStrictDesc (g : Graph) : Prop :=
  ∀ p ∈ g, p.2.Pairwise (fun a b => strLt b a = true)

/-- Edges of the final graph the walk leaves unconsumed when started at
`start` (zero exactly when the walk uses every ticket). -/
def unusedEdges (start : String) (g : Graph) : Nat :=
  match walkLoopF (2 * edgeCount g + 2) g [start] [] with
  | some r => edgeCount r.2.1
  | none => 0

/-- A node whose out/in imbalance exceeds 1 in absolute value (the abort
condition of `findStartingPoint`). -/
def fspBad (oD iD : String → Int) (n : String) : Prop :=
  oD n - iD n < -1 ∨ 1 < oD n - iD n

instance (oD iD : String → Int) (n : String) : Decidable (fspBad oD iD n) := by
  unfold fspBad
  infer_instance

/-- A node whose in/out imbalance exceeds 1 in absolute value (the abort
condition of `validateEndPoints`). -/
def vepBad (oD iD : String → Int) (n : String) : Prop :=
  iD n - oD n < -1 ∨ 1 < iD n - oD n

instance (oD iD : String → Int) (n : String) : Decidable (vepBad oD iD n) := by
  unfold vepBad
  infer_instance

/-- Order relation of a descending-sorted list: earlier elements are
byte-wise larger or equal. -/
def DescRel (a b : String) : Prop := strLt b a = true ∨ a = b

instance (pairs : List (String × String)) (seq : List String) :
    Decidable (IsTrailOf pairs seq) := by
  unfold IsTrailOf
  infer_instance

theorem lexLt_irrefl (l : List Char) : lexLt l l = false := by
  induction l with
  | nil => rfl
  | cons c cs ih => simp [lexLt, ih]

theorem lexLt_asymm {l m : List Char} (h : lexLt l m = true) : lexLt m l = false := by
  induction l generalizing m with
  | nil =>
    cases m with
    | nil => simpa [lexLt] using h
    | cons d ds => rfl
  | cons c cs ih =>
    cases m with
    | nil => simp [lexLt] at h
    | cons d ds =>
      simp only [lexLt] at h ⊢
      by_cases h1 : c.toNat < d.toNat
      · simp [h1, Nat.lt_asymm h1]
      · by_cases h2 : d.toNat < c.toNat
        · simp [h1, h2] at h
        · simp [h1, h2] at h ⊢
          exact ih h

theorem lexLt_eq_of_not {l m : List Char} (h1 : lexLt l m = false)
    (h2 : lexLt m l = false) : l = m := by
  induction l generalizing m with
  | nil =>
    cases m with
    | nil => rfl
    | cons d ds => simp [lexLt] at h1
  | cons c cs ih =>
    cases m with
    | nil => simp [lexLt] at h2
    | cons d ds =>
      simp only [lexLt] at h1 h2
      by_cases hc : c.toNat < d.toNat
      · simp [hc] at h1
      · by_cases hd : d.toNat < c.toNat
        · simp [hc, hd] at h2
        · have hval : c.toNat = d.toNat := by omega
          have hcd : c = d := Char.ext (UInt32.toNat.inj hval)
          simp [hc, hd] at h1 h2
          exact hcd ▸ congrArg (c :: ·) (ih h1 h2)

theorem lexLt_trans {l m n : List Char} (h1 : lexLt l m = true)
    (h2 : lexLt m n = true) : lexLt l n = true := by
  induction l generalizing m n with
  | nil =>
    cases n with
    | nil =>
      cases m with
      | nil => simpa [lexLt] using h1
      | cons d ds => simp [lexLt] at h2
    | cons e es => rfl
  | cons c cs ih =>
    cases m with
    | nil => simp [lexLt] at h1
    | cons d ds =>
      cases n with
      | nil => simp [lexLt] at h2
      | cons e es =>
        simp only [lexLt] at h1 h2 ⊢
        by_cases hcd : c.toNat < d.toNat
        · by_cases hde : d.toNat < e.toNat
          · simp [show c.toNat < e.toNat by omega]
          · by_cases hed : e.toNat < d.toNat
            · simp [hcd, hde, hed] at h2
            · have : d.toNat = e.toNat := by omega
              simp [show c.toNat < e.toNat by omega]
        · by_cases hdc : d.toNat < c.toNat
          · simp [hcd, hdc] at h1
          · have hcd' : c.toNat = d.toNat := by omega
            simp [hcd, hdc] at h1
            by_cases hde : d.toNat < e.toNat
            · simp [show c.toNat < e.toNat by omega]
            · by_cases hed : e.toNat < d.toNat
              · simp [hde, hed] at h2
              · simp [hde, hed] at h2
                have h3 : ¬ c.toNat < e.toNat := by omega
                have h4 : ¬ e.toNat < c.toNat := by omega
                simp [h3, h4]
                exact ih h1 h2

theorem strLt_irrefl (a : String) : strLt a a = false := lexLt_irrefl _

theorem strLt_asymm {a b : String} (h : strLt a b = true) : strLt b a = false :=
  lexLt_asymm h

theorem strLt_eq_of_not {a b : String} (h1 : strLt a b = false)
    (h2 : strLt b a = false) : a = b := by
  have h := lexLt_eq_of_not h1 h2
  cases a; cases b; exact congrArg String.mk h

theorem strLt_trans {a b c : String} (h1 : strLt a b = true)
    (h2 : strLt b c = true) : strLt a c = true := lexLt_trans h1 h2

example :
    ReconstructItinerary
      [["JFK", "SFO"], ["JFK", "ATL"], ["SFO", "ATL"], ["ATL", "JFK"]] =
    .ok ["JFK", "ATL", "JFK", "SFO", "ATL"] := by decide

example :
    ReconstructItinerary
      [["LAX", "DXB"], ["JFK", "LAX"], ["SFO", "SJC"], ["DXB", "SFO"]] =
    .ok ["JFK", "LAX", "DXB", "SFO", "SJC"] := by decide

example :
    ReconstructItinerary [["SFO", "LAX"], ["LAX", "JFK"], ["JFK", "SFO"]] =
    .err .differentStartingPoints := by decide

example :
    ReconstructItinerary
      [["JFK", "SFO"], ["JFK", "ATL"], ["JFK", "SFO"], ["SFO", "LAX"], ["ATL", "LAX"]] =
    .err .multipleSameDestination := by decide

example : ReconstructItinerary [] = .ok [] := by decide

example : ReconstructItinerary [["A", "B"], ["C", "D"], ["D", "C"]] = .ok ["A", "B"] := by
  decide

example : ReconstructItinerary (encodeTickets [("A", "A")]) =
    .err .differentStartingPoints := by decide

theorem edgeCount_cons (p : String × List String) (ps : Graph) :
    edgeCount (p :: ps) = p.2.length + edgeCount ps := by
  simp [edgeCount]

theorem edgeCount_updateG {g : Graph} {k : String} (v : List String)
    (h : lookupG g k ≠ []) :
    edgeCount (updateG g k v) + (lookupG g k).length = edgeCount g + v.length := by
  induction g with
  | nil => simp [lookupG] at h
  | cons p ps ih =>
    by_cases hk : p.1 = k
    · simp only [lookupG, updateG, if_pos hk, edgeCount_cons]
      omega
    · simp only [lookupG, updateG, if_neg hk, edgeCount_cons] at h ⊢
      have := ih h
      omega

theorem walkLoopF_nil (fuel : Nat) (g : Graph) (res : List String) :
    walkLoopF (fuel + 1) g [] res = some (res, g, 0) := rfl

theorem walkLoopF_cons (fuel : Nat) (g : Graph) (curr : String)
    (rest res : List String) :
    walkLoopF (fuel + 1) g (curr :: rest) res =
      (if lookupG g curr ≠ [] then
        walkLoopF fuel (updateG g curr (lookupG g curr).dropLast)
          ((lookupG g curr).getLastD "" :: curr :: rest) res
      else
        walkLoopF fuel g rest (res ++ [curr])).map
        (fun r => (r.1, r.2.1, r.2.2 + 1)) := rfl

theorem walkLoopF_fuel_succ {fuel : Nat} : ∀ {g : Graph} {stack res : List String},
    2 * edgeCount g + stack.length < fuel →
    walkLoopF (fuel + 1) g stack res = walkLoopF fuel g stack res := by
  induction fuel with
  | zero => intro g stack res h; omega
  | succ f ih =>
    intro g stack res h
    match stack with
    | [] => rfl
    | curr :: rest =>
      conv_rhs => rw [walkLoopF_cons f]
      rw [walkLoopF_cons (f + 1)]
      by_cases hd : lookupG g curr ≠ []
      · rw [if_pos hd, if_pos hd]
        have hlen : 1 ≤ (lookupG g curr).length := List.length_pos.mpr hd
        have hup := edgeCount_updateG (lookupG g curr).dropLast hd
        rw [List.length_dropLast] at hup
        have hm : 2 * edgeCount (updateG g curr (lookupG g curr).dropLast) +
            ((lookupG g curr).getLastD "" :: curr :: rest).length < f := by
          simp only [List.length_cons] at h ⊢
          omega
        rw [ih hm]
      · rw [if_neg hd, if_neg hd]
        have hm : 2 * edgeCount g + rest.length < f := by
          simp only [List.length_cons] at h
          omega
        rw [ih hm]

theorem walkLoopF_fuel_norm {fuel : Nat} {g : Graph} {stack res : List String}
    (h : 2 * edgeCount g + stack.length < fuel) :
    walkLoopF fuel g stack res =
      walkLoopF (2 * edgeCount g + stack.length + 1) g stack res := by
  induction fuel with
  | zero => omega
  | succ f ih =>
    rcases Nat.lt_or_ge (2 * edgeCount g + stack.length) f with hf | hf
    · rw [walkLoopF_fuel_succ hf, ih hf]
    · have : f = 2 * edgeCount g + stack.length := by omega
      rw [this]

theorem walkLoopF_fuel_eq {f1 f2 : Nat} {g : Graph} {stack res : List String}
    (h1 : 2 * edgeCount g + stack.length < f1)
    (h2 : 2 * edgeCount g + stack.length < f2) :
    walkLoopF f1 g stack res = walkLoopF f2 g stack res := by
  rw [walkLoopF_fuel_norm h1, walkLoopF_fuel_norm h2]

theorem walkLoopF_some {fuel : Nat} : ∀ {g : Graph} {stack res : List String},
    2 * edgeCount g + stack.length < fuel →
    ∃ r, walkLoopF fuel g stack res = some r ∧
      r.2.2 ≤ 2 * edgeCount g + stack.length := by
  induction fuel with
  | zero => intro g stack res h; omega
  | succ f ih =>
    intro g stack res h
    match stack with
    | [] => exact ⟨(res, g, 0), rfl, by simp⟩
    | curr :: rest =>
      rw [walkLoopF_cons]
      by_cases hd : lookupG g curr ≠ []
      · rw [if_pos hd]
        have hlen : 1 ≤ (lookupG g curr).length := List.length_pos.mpr hd
        have hup := edgeCount_updateG (lookupG g curr).dropLast hd
        rw [List.length_dropLast] at hup
        have hm : 2 * edgeCount (updateG g curr (lookupG g curr).dropLast) +
            ((lookupG g curr).getLastD "" :: curr :: rest).length < f := by
          simp only [List.length_cons] at h ⊢
          omega
        obtain ⟨r, hr, hb⟩ := ih hm
        refine ⟨(r.1, r.2.1, r.2.2 + 1), by rw [hr]; rfl, ?_⟩
        simp only [List.length_cons] at hb ⊢
        omega
      · rw [if_neg hd]
        have hm : 2 * edgeCount g + rest.length < f := by
          simp only [List.length_cons] at h
          omega
        obtain ⟨r, hr, hb⟩ := ih hm
        refine ⟨(r.1, r.2.1, r.2.2 + 1), by rw [hr]; rfl, ?_⟩
        simp only [List.length_cons]
        omega

theorem walkLoopF_conservation {fuel : Nat} :
    ∀ {g : Graph} {stack res : List String} {r : List String × Graph × Nat},
    walkLoopF fuel g stack res = some r →
    r.1.length + edgeCount r.2.1 = res.length + stack.length + edgeCount g := by
  induction fuel with
  | zero => intro g stack res r h; simp [walkLoopF] at h
  | succ f ih =>
    intro g stack res r h
    match stack with
    | [] =>
      rw [walkLoopF_nil, Option.some.injEq] at h
      rw [← h]
      simp
    | curr :: rest =>
      rw [walkLoopF_cons] at h
      by_cases hd : lookupG g curr ≠ []
      · rw [if_pos hd] at h
        cases hw : walkLoopF f (updateG g curr (lookupG g curr).dropLast)
            ((lookupG g curr).getLastD "" :: curr :: rest) res with
        | none => rw [hw] at h; exact absurd h (by simp)
        | some r' =>
          rw [hw] at h
          simp only [Option.map_some', Option.some.injEq] at h
          have hcons := ih hw
          have hlen : 1 ≤ (lookupG g curr).length := List.length_pos.mpr hd
          have hup := edgeCount_updateG (lookupG g curr).dropLast hd
          rw [List.length_dropLast] at hup
          rw [← h]
          simp only [List.length_cons] at hcons ⊢
          omega
      · rw [if_neg hd] at h
        cases hw : walkLoopF f g rest (res ++ [curr]) with
        | none => rw [hw] at h; exact absurd h (by simp)
        | some r' =>
          rw [hw] at h
          simp only [Option.map_some', Option.some.injEq] at h
          have hcons := ih hw
          rw [← h]
          simp only [List.length_append, List.length_cons, List.length_singleton, List.length_nil] at hcons ⊢
          omega

theorem tkey_encode (p : String × String) : tkey [p.1, p.2] = some p := rfl

theorem toPairs_encode (ps : List (String × String)) :
    toPairs (encodeTickets ps) = some ps := by
  induction ps with
  | nil => rfl
  | cons p rest ih =>
    show toPairs ([p.1, p.2] :: encodeTickets rest) = some (p :: rest)
    simp only [toPairs, tkey_encode, ih]

theorem toPairs_length {ts : List (List String)} {ps : List (String × String)}
    (h : toPairs ts = some ps) : ps.length = ts.length := by
  induction ts generalizing ps with
  | nil => simp only [toPairs, Option.some.injEq] at h; simp [← h]
  | cons t rest ih =>
    simp only [toPairs] at h
    cases ht : tkey t with
    | none => rw [ht] at h; exact absurd h (by simp)
    | some p =>
      rw [ht] at h
      cases hr : toPairs rest with
      | none => rw [hr] at h; exact absurd h (by simp)
      | some ps' =>
        rw [hr] at h
        simp only [Option.some.injEq] at h
        subst h
        simp [ih hr]

theorem validateLoop_encode (ps : List (String × String)) :
    ∀ seen, validateLoop seen (encodeTickets ps) =
      if ps.Nodup ∧ ∀ p ∈ ps, p ∉ seen then some (.ok ())
      else some (.error Err.multipleSameDestination) := by
  induction ps with
  | nil => intro seen; simp [encodeTickets, validateLoop, List.Nodup]
  | cons p rest ih =>
    intro seen
    show validateLoop seen ([p.1, p.2] :: encodeTickets rest) = _
    simp only [validateLoop, tkey_encode]
    by_cases hp : p ∈ seen
    · rw [if_pos hp, if_neg]
      rintro ⟨-, hall⟩
      exact hall p (List.mem_cons_self p rest) hp
    · rw [if_neg hp, ih (p :: seen)]
      have hiff : (rest.Nodup ∧ ∀ q ∈ rest, q ∉ p :: seen) ↔
          ((p :: rest).Nodup ∧ ∀ q ∈ p :: rest, q ∉ seen) := by
        simp only [List.nodup_cons, List.mem_cons, not_or]
        constructor
        · rintro ⟨hn, hall⟩
          refine ⟨⟨fun hmem => (hall p hmem).1 rfl, hn⟩, ?_⟩
          rintro q (rfl | hq)
          · exact hp
          · exact (hall q hq).2
        · rintro ⟨⟨hpr, hn⟩, hall⟩
          refine ⟨hn, fun q hq => ⟨fun he => hpr (he ▸ hq), ?_⟩⟩
          rcases hq with hq
          exact hall q (Or.inr hq)
      exact if_congr hiff rfl rfl

theorem validateTickets_encode (ps : List (String × String)) :
    validateTickets (encodeTickets ps) =
      if ps.Nodup then some (.ok ())
      else some (.error Err.multipleSameDestination) := by
  rw [validateTickets, validateLoop_encode]
  apply if_congr _ rfl rfl
  simp

theorem tkey_isSome_of_len {t : List String} (h : 2 ≤ t.length) :
    (tkey t).isSome := by
  match t with
  | [] => simp at h
  | [a] => simp at h
  | a :: b :: rest => simp [tkey]

theorem validateLoop_ne_none {ts : List (List String)}
    (h : ∀ t ∈ ts, (tkey t).isSome) :
    ∀ seen, validateLoop seen ts ≠ none := by
  induction ts with
  | nil => intro seen; simp [validateLoop]
  | cons t rest ih =>
    intro seen
    simp only [validateLoop]
    cases ht : tkey t with
    | none =>
      have := h t (List.mem_cons_self t rest)
      rw [ht] at this
      simp at this
    | some k =>
      by_cases hk : k ∈ seen
      · simp [hk]
      · simp only [if_neg hk]
        exact ih (fun t' ht' => h t' (List.mem_cons_of_mem t ht')) (k :: seen)

theorem toPairs_ne_none {ts : List (List String)}
    (h : ∀ t ∈ ts, (tkey t).isSome) : toPairs ts ≠ none := by
  induction ts with
  | nil => simp [toPairs]
  | cons t rest ih =>
    simp only [toPairs]
    cases ht : tkey t with
    | none =>
      have := h t (List.mem_cons_self t rest)
      rw [ht] at this
      simp at this
    | some k =>
      cases hr : toPairs rest with
      | none => exact absurd hr (ih (fun t' ht' => h t' (List.mem_cons_of_mem t ht')))
      | some ps => simp

theorem validateLoop_ok_nodup {ts : List (List String)} :
    ∀ {seen}, validateLoop seen ts = some (.ok ()) →
    ∃ ps, toPairs ts = some ps ∧ ps.Nodup ∧ ∀ p ∈ ps, p ∉ seen := by
  induction ts with
  | nil => intro seen _; exact ⟨[], rfl, List.nodup_nil, by simp⟩
  | cons t rest ih =>
    intro seen h
    simp only [validateLoop] at h
    cases ht : tkey t with
    | none => rw [ht] at h; exact absurd h (by simp)
    | some k =>
      rw [ht] at h
      have h2 : (if k ∈ seen then some (Except.error Err.multipleSameDestination)
          else validateLoop (k :: seen) rest) = some (Except.ok ()) := h
      by_cases hk : k ∈ seen
      · rw [if_pos hk] at h2
        exact absurd h2 (by simp)
      · rw [if_neg hk] at h2
        obtain ⟨ps, hps, hnd, hmem⟩ := ih h2
        refine ⟨k :: ps, ?_, ?_, ?_⟩
        · simp only [toPairs, ht, hps]
        · exact List.nodup_cons.mpr
            ⟨fun hkps => (hmem k hkps) (List.mem_cons_self k seen), hnd⟩
        · intro p hp
          rcases List.mem_cons.mp hp with rfl | hp'
          · exact hk
          · exact fun hs => hmem p hp' (List.mem_cons_of_mem k hs)

theorem edgeCount_appendEdge (g : Graph) (s d : String) :
    edgeCount (appendEdge g s d) = edgeCount g + 1 := by
  induction g with
  | nil => simp [appendEdge, edgeCount]
  | cons p ps ih =>
    by_cases hs : p.1 = s
    · simp only [appendEdge, if_pos hs, edgeCount_cons]
      simp
      omega
    · simp only [appendEdge, if_neg hs, edgeCount_cons, ih]
      omega

theorem edgeCount_buildAdj (ps : List (String × String)) :
    edgeCount (buildAdj ps) = ps.length := by
  suffices h : ∀ g, edgeCount (ps.foldl (fun g p => appendEdge g p.1 p.2) g) =
      edgeCount g + ps.length by
    simpa [buildAdj, edgeCount] using h []
  induction ps with
  | nil => intro g; simp
  | cons p rest ih =>
    intro g
    simp only [List.foldl_cons, ih, edgeCount_appendEdge, List.length_cons]
    omega

theorem length_insertDesc (a : String) (l : List String) :
    (insertDesc a l).length = l.length + 1 := by
  induction l with
  | nil => rfl
  | cons b bs ih =>
    by_cases hb : strLt b a = true
    · simp [insertDesc, hb]
    · simp [insertDesc, hb, ih]

theorem length_sortDesc (l : List String) : (sortDesc l).length = l.length := by
  induction l with
  | nil => rfl
  | cons x xs ih => simp [sortDesc, length_insertDesc, ih]

theorem edgeCount_buildGraph (ps : List (String × String)) :
    edgeCount (buildGraph ps) = ps.length := by
  rw [← edgeCount_buildAdj ps]
  unfold buildGraph
  induction buildAdj ps with
  | nil => rfl
  | cons p g ih => simp only [List.map_cons, edgeCount_cons, length_sortDesc, ih]

theorem findPath_conservation (start : String) (g : Graph) :
    (findPath start g).length + unusedEdges start g = edgeCount g + 1 := by
  obtain ⟨r, hr, -⟩ := @walkLoopF_some (2 * edgeCount g + 2) g [start] []
    (by simp)
  rw [findPath, unusedEdges, hr]
  have := walkLoopF_conservation hr
  simp only [List.length_nil, List.length_cons, List.length_reverse] at this ⊢
  omega

theorem pairsOf_eq {tickets : List (List String)} {ps : List (String × String)}
    (h : toPairs tickets = some ps) : pairsOf tickets = ps := by
  simp [pairsOf, h]

/-- C1 (amended), counterexample part: a disconnected ticket list on which
`ReconstructItinerary` returns without error but the itinerary length is
not `len(tickets) + 1`. -/
theorem claim_C1_counterexample :
    ReconstructItinerary [["A", "B"], ["C", "D"], ["D", "C"]] = .ok ["A", "B"] ∧
    (["A", "B"] : List String).length ≠
      ([["A", "B"], ["C", "D"], ["D", "C"]] : List (List String)).length + 1 := by
  constructor
  · decide
  · decide

/-- C1 (amended): for any non-error result, the itinerary is empty when the
ticket list is empty, and otherwise its length plus the number of tickets
the walk left unconsumed equals `len(tickets) + 1` (so equality
`len(itinerary) = len(tickets) + 1` holds exactly when the walk consumes
every ticket, which a disconnected input can prevent without an error). -/
theorem claim_C1 (tickets : List (List String)) (it : List String)
    (h : ReconstructItinerary tickets = .ok it) :
    (tickets = [] → it = []) ∧
    (tickets ≠ [] → ∃ ps s, toPairs tickets = some ps ∧
      findStartingPoint (outDeg ps) (inDeg ps) (outKeysOf ps) = .ok s ∧
      it.length + unusedEdges s (buildGraph ps) = tickets.length + 1) := by
  constructor
  · rintro rfl
    have h2 : GoResult.ok [] = GoResult.ok it := h
    simpa using h2.symm
  · intro hne
    unfold ReconstructItinerary ReconstructItineraryWith at h
    rw [if_neg (by simpa using hne)] at h
    cases hval : validateTickets tickets with
    | none => simp only [hval] at h; exact absurd h (by simp)
    | some ve =>
      cases ve with
      | error e => simp only [hval] at h; exact absurd h (by simp)
      | ok u =>
        simp only [hval] at h
        cases hps : toPairs tickets with
        | none => simp only [hps] at h; exact absurd h (by simp)
        | some ps =>
          simp only [hps, pairsOf_eq hps] at h
          cases hst : findStartingPoint (outDeg ps) (inDeg ps) (outKeysOf ps) with
          | error e => simp only [hst] at h; exact absurd h (by simp)
          | ok s =>
            simp only [hst] at h
            cases hvep : validateEndPoints [s] (outDeg ps) (inDeg ps) (inKeysOf ps) with
            | error e => simp only [hvep] at h; exact absurd h (by simp)
            | ok u2 =>
              simp only [hvep] at h
              by_cases hcyc : 2 ≤ (findPath s (buildGraph ps)).length ∧
                  (findPath s (buildGraph ps)).headD "" =
                    (findPath s (buildGraph ps)).getLastD ""
              · rw [if_pos hcyc] at h
                exact absurd h (by simp)
              · rw [if_neg hcyc] at h
                simp only [GoResult.ok.injEq] at h
                refine ⟨ps, s, rfl, hst, ?_⟩
                rw [← h]
                have hcons := findPath_conservation s (buildGraph ps)
                rw [edgeCount_buildGraph, toPairs_length hps] at hcons
                exact hcons

/-- Witness for C1 at the four-ticket example input. -/
theorem claim_C1_witness :
    ReconstructItinerary
        [["JFK", "SFO"], ["JFK", "ATL"], ["SFO", "ATL"], ["ATL", "JFK"]] =
      .ok ["JFK", "ATL", "JFK", "SFO", "ATL"] ∧
    (([["JFK", "SFO"], ["JFK", "ATL"], ["SFO", "ATL"], ["ATL", "JFK"]] :
        List (List String)) = [] →
      (["JFK", "ATL", "JFK", "SFO", "ATL"] : List String) = []) ∧
    (([["JFK", "SFO"], ["JFK", "ATL"], ["SFO", "ATL"], ["ATL", "JFK"]] :
        List (List String)) ≠ [] →
      ∃ ps s,
        toPairs [["JFK", "SFO"], ["JFK", "ATL"], ["SFO", "ATL"], ["ATL", "JFK"]] =
          some ps ∧
        findStartingPoint (outDeg ps) (inDeg ps) (outKeysOf ps) = .ok s ∧
        (["JFK", "ATL", "JFK", "SFO", "ATL"] : List String).length +
            unusedEdges s (buildGraph ps) =
          ([["JFK", "SFO"], ["JFK", "ATL"], ["SFO", "ATL"], ["ATL", "JFK"]] :
            List (List String)).length + 1) :=
  ⟨by decide, (claim_C1 _ _ (by decide)).1, (claim_C1 _ _ (by decide)).2⟩

theorem findStartingPoint_error_eq {oD iD : String → Int} {keys : List String}
    {e : Err} (h : findStartingPoint oD iD keys = .error e) :
    e = .differentStartingPoints := by
  unfold findStartingPoint at h
  by_cases h1 : (fspLoop oD iD [] keys).2 = false ∨ 1 < (fspLoop oD iD [] keys).1.length
  · rw [if_pos h1] at h
    simpa using h.symm
  · rw [if_neg h1] at h
    by_cases h2 : (fspLoop oD iD [] keys).1.length = 1
    · rw [if_pos h2] at h
      simp at h
    · rw [if_neg h2] at h
      by_cases h3 : keys.all (fun n => decide (oD n = iD n)) = true
      · rw [if_pos h3] at h
        simpa using h.symm
      · rw [if_neg h3] at h
        simpa using h.symm

theorem vepLoop_error_eq {oD iD : String → Int} {keys : List String}
    {cnt : Nat} {e : Err} (h : vepLoop oD iD cnt keys = .error e) :
    e = .differentStartingPoints := by
  induction keys generalizing cnt with
  | nil => simp [vepLoop] at h
  | cons n rest ih =>
    simp only [vepLoop] at h
    split_ifs at h
    · exact ih h
    · simp_all
    · exact ih h

theorem validateEndPoints_error_eq {sc : List String} {oD iD : String → Int}
    {keys : List String} {e : Err}
    (h : validateEndPoints sc oD iD keys = .error e) :
    e = .differentStartingPoints := by
  unfold validateEndPoints at h
  cases hv : vepLoop oD iD 0 keys with
  | error e' =>
    rw [hv] at h
    simp only [Except.error.injEq] at h
    rw [← h]
    exact vepLoop_error_eq hv
  | ok cnt =>
    rw [hv] at h
    have h2 : (if sc.length = 1 ∧ cnt ≠ 1 then
        Except.error Err.differentStartingPoints else Except.ok ()) =
        Except.error e := h
    split_ifs at h2 <;> simp_all

theorem nodup_iff_countP_le_one {α : Type} [DecidableEq α] {l : List α} :
    l.Nodup ↔ ∀ a, l.countP (fun x => decide (x = a)) ≤ 1 := by
  induction l with
  | nil => simp
  | cons x xs ih =>
    rw [List.nodup_cons]
    constructor
    · rintro ⟨hx, hnd⟩ a
      rw [List.countP_cons]
      by_cases ha : x = a
      · subst ha
        have hz : xs.countP (fun y => decide (y = x)) = 0 := by
          rw [List.countP_eq_zero]
          intro b hb
          simp only [decide_eq_true_eq]
          rintro rfl
          exact hx hb
        simp [hz]
      · have := ih.mp hnd a
        simp [ha]
        omega
    · intro hall
      have hx : x ∉ xs := by
        intro hmem
        have h1 := hall x
        have hpa : (fun y => decide (y = x)) x = true := by simp
        rw [List.countP_cons_of_pos (fun y => decide (y = x)) xs hpa] at h1
        have h2 : 0 < xs.countP (fun y => decide (y = x)) :=
          List.countP_pos_iff.mpr ⟨x, hmem, by simp⟩
        omega
      refine ⟨hx, ih.mpr (fun a => ?_)⟩
      have := hall a
      rw [List.countP_cons] at this
      omega

theorem reconstruct_msd_iff (pairs : List (String × String)) :
    ReconstructItinerary (encodeTickets pairs) =
      .err .multipleSameDestination ↔ ¬ pairs.Nodup := by
  unfold ReconstructItinerary ReconstructItineraryWith
  by_cases hz : (encodeTickets pairs).length = 0
  · rw [if_pos hz]
    have hp0 : pairs = [] := by simpa [encodeTickets] using hz
    subst hp0
    simp
  · rw [if_neg hz, validateTickets_encode]
    by_cases hnd : pairs.Nodup
    · rw [if_pos hnd]
      apply iff_of_false _ (by simpa using hnd)
      simp only [pairsOf_eq (toPairs_encode pairs), toPairs_encode]
      intro hmsd
      split at hmsd
      next e heq =>
        rw [findStartingPoint_error_eq heq] at hmsd
        exact absurd hmsd (by simp)
      next s heq =>
        split at hmsd
        next e2 heq2 =>
          rw [validateEndPoints_error_eq heq2] at hmsd
          exact absurd hmsd (by simp)
        next u2 heq2 =>
          split at hmsd
          next hcyc => exact absurd hmsd (by simp)
          next hcyc => exact absurd hmsd (by simp)
    · rw [if_neg hnd]
      simpa using hnd

/-- C4: `ReconstructItinerary` fails with the multiple-same-destination
error exactly when some identical ordered (source, destination) pair occurs
at least twice in the ticket list. (In particular, distinct tickets sharing
only a source or only a destination never trigger it, and whenever a
duplicate exists anywhere in the list this error — and no other result —
is produced, so it fires on the first repetition.) -/
theorem claim_C4 (pairs : List (String × String)) :
    ReconstructItinerary (encodeTickets pairs) =
      .err .multipleSameDestination ↔
    ∃ p, 2 ≤ pairs.countP (fun q => decide (q = p)) := by
  rw [reconstruct_msd_iff]
  constructor
  · intro hnd
    by_contra hc
    push_neg at hc
    exact hnd (nodup_iff_countP_le_one.mpr (fun a => by have := hc a; omega))
  · rintro ⟨p, hp⟩ hnd
    have := nodup_iff_countP_le_one.mp hnd p
    omega

/-- C7: the four-ticket reference example returns the expected itinerary
and no error. -/
theorem claim_C7 :
    ReconstructItinerary
        [["JFK", "SFO"], ["JFK", "ATL"], ["SFO", "ATL"], ["ATL", "JFK"]] =
      .ok ["JFK", "ATL", "JFK", "SFO", "ATL"] := by
  decide

/-- C9: on tickets that all have at least two entries (the collaborator's
contract), the pipeline never panics — every index into a ticket is in
bounds, so the only outcomes are a successful itinerary or one of the three
classified errors (which is everything `GoResult` other than `panic` can
express). -/
theorem claim_C9 (tickets : List (List String))
    (h : ∀ t ∈ tickets, 2 ≤ t.length) :
    ReconstructItinerary tickets ≠ GoResult.panic := by
  unfold ReconstructItinerary ReconstructItineraryWith
  by_cases hz : tickets.length = 0
  · rw [if_pos hz]
    simp
  · rw [if_neg hz]
    have hts : ∀ t ∈ tickets, (tkey t).isSome :=
      fun t ht => tkey_isSome_of_len (h t ht)
    intro hp
    cases hval : validateTickets tickets with
    | none => exact absurd hval (validateLoop_ne_none hts [])
    | some ve =>
      cases ve with
      | error e => simp [hval] at hp
      | ok u =>
        simp only [hval] at hp
        cases hps : toPairs tickets with
        | none => exact absurd hps (toPairs_ne_none hts)
        | some ps =>
          simp only [hps] at hp
          split at hp
          next e heq => simp at hp
          next s heq =>
            split at hp
            next e2 heq2 => simp at hp
            next u2 heq2 =>
              split at hp
              next hcyc => simp at hp
              next hcyc => simp at hp

/-- Witness for C9 at a concrete well-formed input. -/
theorem claim_C9_witness :
    (∀ t ∈ ([["A", "B"]] : List (List String)), 2 ≤ t.length) ∧
    ReconstructItinerary [["A", "B"]] ≠ GoResult.panic :=
  ⟨by decide, claim_C9 _ (by decide)⟩

/-- C10: for every finite graph and start node, the walk loop of `findPath`
terminates — with fuel `2 * edgeCount g + 2` it returns a result, and the
number of loop iterations it executed is at most `2 * edgeCount g + 1`. -/
theorem claim_C10 (g : Graph) (start : String) :
    ∃ r, walkLoopF (2 * edgeCount g + 2) g [start] [] = some r ∧
      r.2.2 ≤ 2 * edgeCount g + 1 := by
  obtain ⟨r, hr, hb⟩ := @walkLoopF_some (2 * edgeCount g + 2) g [start] []
    (by simp)
  refine ⟨r, hr, ?_⟩
  simpa using hb

/-- C8, counterexample part: for A = B the single-ticket round trip fails
with `differentStartingPoints` instead of returning `[A, B]`. -/
theorem claim_C8_counterexample :
    ReconstructItinerary (encodeTickets [("A", "A")]) =
      .err .differentStartingPoints ∧
    ReconstructItinerary (encodeTickets [("A", "A")]) ≠ .ok ["A", "A"] :=
  ⟨by decide, by decide⟩

/-- C8 (amended): for every pair of distinct strings A ≠ B, the
single-ticket list [(A, B)] yields the itinerary [A, B] and no error (for
A = B the code instead fails with `differentStartingPoints`, since the
one-node graph is balanced). -/
theorem claim_C8 (A B : String) (h : A ≠ B) :
    ReconstructItinerary (encodeTickets [(A, B)]) = .ok [A, B] := by
  have hne' : B ≠ A := Ne.symm h
  unfold ReconstructItinerary ReconstructItineraryWith
  rw [if_neg (by simp [encodeTickets])]
  rw [validateTickets_encode, if_pos (by simp)]
  simp only [toPairs_encode, pairsOf_eq (toPairs_encode [(A, B)])]
  have hfsp : findStartingPoint (outDeg [(A, B)]) (inDeg [(A, B)])
      (outKeysOf [(A, B)]) = .ok A := by
    simp [findStartingPoint, fspLoop, outKeysOf, outDeg, inDeg, h, hne']
  have hvep : validateEndPoints [A] (outDeg [(A, B)]) (inDeg [(A, B)])
      (inKeysOf [(A, B)]) = .ok () := by
    simp [validateEndPoints, vepLoop, inKeysOf, outDeg, inDeg, h, hne']
  have hpath : findPath A (buildGraph [(A, B)]) = [A, B] := by
    simp [findPath, buildGraph, buildAdj, appendEdge, sortDesc, insertDesc,
      edgeCount, walkLoopF, lookupG, updateG, h, hne']
  simp only [hfsp, hvep, hpath]
  rw [if_neg]
  simp [h]

/-- Witness for C8 at A = "JFK", B = "SFO". -/
theorem claim_C8_witness :
    ("JFK" : String) ≠ "SFO" ∧
    ReconstructItinerary (encodeTickets [("JFK", "SFO")]) =
      .ok ["JFK", "SFO"] :=
  ⟨by decide, claim_C8 "JFK" "SFO" (by decide)⟩

/-- C5: on a ticket list that passes validation (no duplicates) and
endpoint resolution, the cycle-in-itinerary error is returned exactly when
the walk's sequence has length at least 2 and its first element equals its
last element. -/
theorem claim_C5 (pairs : List (String × String)) (s : String)
    (hnd : pairs.Nodup)
    (hst : findStartingPoint (outDeg pairs) (inDeg pairs) (outKeysOf pairs) =
      .ok s)
    (hvep : validateEndPoints [s] (outDeg pairs) (inDeg pairs)
      (inKeysOf pairs) = .ok ()) :
    ReconstructItinerary (encodeTickets pairs) = .err .cycleInItinerary ↔
      2 ≤ (findPath s (buildGraph pairs)).length ∧
        (findPath s (buildGraph pairs)).headD "" =
          (findPath s (buildGraph pairs)).getLastD "" := by
  have hne : pairs ≠ [] := by
    rintro rfl
    simp [findStartingPoint, fspLoop, outKeysOf] at hst
  unfold ReconstructItinerary ReconstructItineraryWith
  rw [if_neg (by simp [encodeTickets, List.length_eq_zero, hne])]
  rw [validateTickets_encode, if_pos hnd]
  simp only [toPairs_encode, pairsOf_eq (toPairs_encode pairs), hst, hvep]
  by_cases hcyc : 2 ≤ (findPath s (buildGraph pairs)).length ∧
      (findPath s (buildGraph pairs)).headD "" =
        (findPath s (buildGraph pairs)).getLastD ""
  · rw [if_pos hcyc]
    simpa using hcyc
  · rw [if_neg hcyc]
    exact iff_of_false (by simp) hcyc

/-- Witness for C5 at the four-ticket example (where the walk is an open
trail, so both sides of the iff are false). -/
theorem claim_C5_witness :
    ([("JFK", "SFO"), ("JFK", "ATL"), ("SFO", "ATL"), ("ATL", "JFK")] :
      List (String × String)).Nodup ∧
    findStartingPoint
        (outDeg [("JFK", "SFO"), ("JFK", "ATL"), ("SFO", "ATL"), ("ATL", "JFK")])
        (inDeg [("JFK", "SFO"), ("JFK", "ATL"), ("SFO", "ATL"), ("ATL", "JFK")])
        (outKeysOf [("JFK", "SFO"), ("JFK", "ATL"), ("SFO", "ATL"), ("ATL", "JFK")]) =
      .ok "JFK" ∧
    validateEndPoints ["JFK"]
        (outDeg [("JFK", "SFO"), ("JFK", "ATL"), ("SFO", "ATL"), ("ATL", "JFK")])
        (inDeg [("JFK", "SFO"), ("JFK", "ATL"), ("SFO", "ATL"), ("ATL", "JFK")])
        (inKeysOf [("JFK", "SFO"), ("JFK", "ATL"), ("SFO", "ATL"), ("ATL", "JFK")]) =
      .ok () ∧
    (ReconstructItinerary
        (encodeTickets
          [("JFK", "SFO"), ("JFK", "ATL"), ("SFO", "ATL"), ("ATL", "JFK")]) =
        .err .cycleInItinerary ↔
      2 ≤ (findPath "JFK"
          (buildGraph
            [("JFK", "SFO"), ("JFK", "ATL"), ("SFO", "ATL"), ("ATL", "JFK")])).length ∧
        (findPath "JFK"
            (buildGraph
              [("JFK", "SFO"), ("JFK", "ATL"), ("SFO", "ATL"), ("ATL", "JFK")])).headD "" =
          (findPath "JFK"
              (buildGraph
                [("JFK", "SFO"), ("JFK", "ATL"), ("SFO", "ATL"), ("ATL", "JFK")])).getLastD "") :=
  ⟨by decide, by rfl, by rfl,
    claim_C5 _ _ (by decide) (by rfl) (by rfl)⟩

theorem fspLoop_false_of_bad (oD iD : String → Int) :
    ∀ {keys : List String}, (∃ n ∈ keys, fspBad oD iD n) →
    ∀ acc, (fspLoop oD iD acc keys).2 = false := by
  intro keys
  induction keys with
  | nil => rintro ⟨n, hn, -⟩; exact absurd hn (List.not_mem_nil n)
  | cons m rest ih =>
    rintro ⟨n, hn, hbad⟩ acc
    simp only [fspLoop]
    by_cases h1 : oD m - iD m = 1
    · rcases List.mem_cons.mp hn with rfl | hn'
      · exact absurd h1 (by rcases hbad with hb | hb <;> omega)
      · rw [if_pos h1]
        exact ih ⟨n, hn', hbad⟩ (acc ++ [m])
    · by_cases h2 : oD m - iD m < -1 ∨ 1 < oD m - iD m
      · rw [if_neg h1, if_pos h2]
      · rcases List.mem_cons.mp hn with rfl | hn'
        · exact absurd hbad h2
        · rw [if_neg h1, if_neg h2]
          exact ih ⟨n, hn', hbad⟩ acc

theorem fspLoop_eq_of_no_bad (oD iD : String → Int) :
    ∀ {keys : List String}, (∀ n ∈ keys, ¬ fspBad oD iD n) →
    ∀ acc, fspLoop oD iD acc keys =
      (acc ++ keys.filter (fun n => decide (oD n - iD n = 1)), true) := by
  intro keys
  induction keys with
  | nil => intro _ acc; simp [fspLoop]
  | cons m rest ih =>
    intro h acc
    have hm : ¬ fspBad oD iD m := h m (List.mem_cons_self m rest)
    have hrest : ∀ n ∈ rest, ¬ fspBad oD iD n :=
      fun n hn => h n (List.mem_cons_of_mem m hn)
    simp only [fspLoop]
    by_cases h1 : oD m - iD m = 1
    · rw [if_pos h1, ih hrest (acc ++ [m])]
      simp [h1, List.filter_cons]
    · have h2 : ¬ (oD m - iD m < -1 ∨ 1 < oD m - iD m) := hm
      rw [if_neg h1, if_neg h2, ih hrest acc]
      simp [h1, List.filter_cons]

theorem findStartingPoint_eq (oD iD : String → Int) (keys : List String) :
    findStartingPoint oD iD keys =
      if (∃ n ∈ keys, fspBad oD iD n) ∨
          (keys.filter (fun n => decide (oD n - iD n = 1))).length ≠ 1 then
        .error .differentStartingPoints
      else
        .ok ((keys.filter (fun n => decide (oD n - iD n = 1))).headD "") := by
  unfold findStartingPoint
  by_cases hbad : ∃ n ∈ keys, fspBad oD iD n
  · rw [fspLoop_false_of_bad oD iD hbad []]
    rw [if_pos (Or.inl rfl), if_pos (Or.inl hbad)]
  · have hno : ∀ n ∈ keys, ¬ fspBad oD iD n := by
      intro n hn hb
      exact hbad ⟨n, hn, hb⟩
    rw [fspLoop_eq_of_no_bad oD iD hno []]
    simp only [List.nil_append]
    by_cases h1 : (keys.filter (fun n => decide (oD n - iD n = 1))).length = 1
    · rw [if_neg (by simp [h1]), if_pos h1, if_neg (by simp [hbad, h1])]
    · by_cases h2 : 1 < (keys.filter (fun n => decide (oD n - iD n = 1))).length
      · rw [if_pos (Or.inr h2), if_pos (Or.inr h1)]
      · rw [if_neg (by simp [h2]), if_neg h1, if_pos (Or.inr h1)]
        by_cases h3 : keys.all (fun n => decide (oD n = iD n)) = true
        · rw [if_pos h3]
        · rw [if_neg h3]

theorem findStartingPoint_perm {oD iD : String → Int} {k1 k2 : List String}
    (hp : k1.Perm k2) :
    findStartingPoint oD iD k1 = findStartingPoint oD iD k2 := by
  rw [findStartingPoint_eq, findStartingPoint_eq]
  have hf : (k1.filter (fun n => decide (oD n - iD n = 1))).Perm
      (k2.filter (fun n => decide (oD n - iD n = 1))) := hp.filter _
  have hex : (∃ n ∈ k1, fspBad oD iD n) ↔ (∃ n ∈ k2, fspBad oD iD n) := by
    constructor
    · rintro ⟨n, hn, hb⟩; exact ⟨n, hp.mem_iff.mp hn, hb⟩
    · rintro ⟨n, hn, hb⟩; exact ⟨n, hp.mem_iff.mpr hn, hb⟩
  by_cases hc : (∃ n ∈ k1, fspBad oD iD n) ∨
      (k1.filter (fun n => decide (oD n - iD n = 1))).length ≠ 1
  · rw [if_pos hc, if_pos (by rw [← hex, ← hf.length_eq]; exact hc)]
  · rw [if_neg hc, if_neg (by rw [← hex, ← hf.length_eq]; exact hc)]
    push_neg at hc
    obtain ⟨c, hc1⟩ := List.length_eq_one.mp hc.2
    rw [hc1]
    rw [hc1] at hf
    rw [List.perm_singleton.mp hf.symm]

theorem vepLoop_eq (oD iD : String → Int) :
    ∀ {keys : List String} (cnt : Nat),
    vepLoop oD iD cnt keys =
      if ∃ n ∈ keys, vepBad oD iD n then .error .differentStartingPoints
      else .ok (cnt + keys.countP (fun n => decide (iD n - oD n = 1))) := by
  intro keys
  induction keys with
  | nil => intro cnt; simp [vepLoop]
  | cons m rest ih =>
    intro cnt
    simp only [vepLoop]
    by_cases h1 : iD m - oD m = 1
    · rw [if_pos h1, ih (cnt + 1)]
      have hm : ¬ vepBad oD iD m := by unfold vepBad; omega
      by_cases hrest : ∃ n ∈ rest, vepBad oD iD n
      · rw [if_pos hrest, if_pos (by
          obtain ⟨n, hn, hb⟩ := hrest
          exact ⟨n, List.mem_cons_of_mem m hn, hb⟩)]
      · rw [if_neg hrest, if_neg (by
          rintro ⟨n, hn, hb⟩
          rcases List.mem_cons.mp hn with rfl | hn'
          · exact hm hb
          · exact hrest ⟨n, hn', hb⟩)]
        rw [List.countP_cons_of_pos _ rest (by simpa using h1)]
        simp only [Except.ok.injEq]
        omega
    · by_cases h2 : iD m - oD m < -1 ∨ 1 < iD m - oD m
      · rw [if_neg h1, if_pos h2,
          if_pos ⟨m, List.mem_cons_self m rest, h2⟩]
      · rw [if_neg h1, if_neg h2, ih cnt]
        have hcnt : (rest.countP (fun n => decide (iD n - oD n = 1))) =
            ((m :: rest).countP (fun n => decide (iD n - oD n = 1))) := by
          rw [List.countP_cons_of_neg _ rest (by simpa using h1)]
        by_cases hrest : ∃ n ∈ rest, vepBad oD iD n
        · rw [if_pos hrest, if_pos (by
            obtain ⟨n, hn, hb⟩ := hrest
            exact ⟨n, List.mem_cons_of_mem m hn, hb⟩)]
        · rw [if_neg hrest, if_neg (by
            rintro ⟨n, hn, hb⟩
            rcases List.mem_cons.mp hn with rfl | hn'
            · exact h2 hb
            · exact hrest ⟨n, hn', hb⟩)]
          rw [← hcnt]

theorem validateEndPoints_eq (sc : List String) (oD iD : String → Int)
    (keys : List String) :
    validateEndPoints sc oD iD keys =
      if (∃ n ∈ keys, vepBad oD iD n) ∨
          (sc.length = 1 ∧
            keys.countP (fun n => decide (iD n - oD n = 1)) ≠ 1) then
        .error .differentStartingPoints
      else .ok () := by
  unfold validateEndPoints
  rw [vepLoop_eq]
  by_cases hbad : ∃ n ∈ keys, vepBad oD iD n
  · rw [if_pos hbad, if_pos (Or.inl hbad)]
  · rw [if_neg hbad]
    simp only [Nat.zero_add]
    by_cases hc : sc.length = 1 ∧
        keys.countP (fun n => decide (iD n - oD n = 1)) ≠ 1
    · rw [if_pos hc, if_pos (Or.inr hc)]
    · rw [if_neg hc, if_neg (by
        rintro (hb | hb)
        · exact hbad hb
        · exact hc hb)]

theorem validateEndPoints_perm {sc : List String} {oD iD : String → Int}
    {k1 k2 : List String} (hp : k1.Perm k2) :
    validateEndPoints sc oD iD k1 = validateEndPoints sc oD iD k2 := by
  rw [validateEndPoints_eq, validateEndPoints_eq]
  have hex : (∃ n ∈ k1, vepBad oD iD n) ↔ (∃ n ∈ k2, vepBad oD iD n) := by
    constructor
    · rintro ⟨n, hn, hb⟩; exact ⟨n, hp.mem_iff.mp hn, hb⟩
    · rintro ⟨n, hn, hb⟩; exact ⟨n, hp.mem_iff.mpr hn, hb⟩
  apply if_congr _ rfl rfl
  rw [hp.countP_eq]
  exact or_congr hex Iff.rfl

/-- C6: `ReconstructItinerary` is deterministic — its result does not
depend on the iteration order of the two unordered degree maps: running the
pipeline with any permutation of the out-degree and in-degree key sets
produces exactly the canonical result (same itinerary or same error
kind). -/
theorem claim_C6 (tickets : List (List String)) (oKeys iKeys : List String)
    (ho : oKeys.Perm (outKeysOf (pairsOf tickets)))
    (hi : iKeys.Perm (inKeysOf (pairsOf tickets))) :
    ReconstructItineraryWith tickets oKeys iKeys =
      ReconstructItinerary tickets := by
  unfold ReconstructItinerary ReconstructItineraryWith
  by_cases hz : tickets.length = 0
  · rw [if_pos hz, if_pos hz]
  · rw [if_neg hz, if_neg hz]
    simp only [show ∀ oD iD : String → Int, findStartingPoint oD iD oKeys =
        findStartingPoint oD iD (outKeysOf (pairsOf tickets)) from
        fun _ _ => findStartingPoint_perm ho,
      show ∀ (sc : List String) (oD iD : String → Int),
          validateEndPoints sc oD iD iKeys =
            validateEndPoints sc oD iD (inKeysOf (pairsOf tickets)) from
        fun _ _ _ => validateEndPoints_perm hi]

/-- Witness for C6: permuted key orders on the four-ticket example give the
canonical result. -/
theorem claim_C6_witness :
    (["ATL", "JFK", "SFO"] : List String).Perm
      (outKeysOf (pairsOf
        [["JFK", "SFO"], ["JFK", "ATL"], ["SFO", "ATL"], ["ATL", "JFK"]])) ∧
    (["JFK", "SFO", "ATL"] : List String).Perm
      (inKeysOf (pairsOf
        [["JFK", "SFO"], ["JFK", "ATL"], ["SFO", "ATL"], ["ATL", "JFK"]])) ∧
    ReconstructItineraryWith
        [["JFK", "SFO"], ["JFK", "ATL"], ["SFO", "ATL"], ["ATL", "JFK"]]
        ["ATL", "JFK", "SFO"] ["JFK", "SFO", "ATL"] =
      ReconstructItinerary
        [["JFK", "SFO"], ["JFK", "ATL"], ["SFO", "ATL"], ["ATL", "JFK"]] :=
  ⟨by decide, by decide, claim_C6 _ _ _ (by decide) (by decide)⟩

theorem outDeg_nonneg (pairs : List (String × String)) (n : String) :
    0 ≤ outDeg pairs n := by
  unfold outDeg
  exact_mod_cast Nat.zero_le _

theorem inDeg_nonneg (pairs : List (String × String)) (n : String) :
    0 ≤ inDeg pairs n := by
  unfold inDeg
  exact_mod_cast Nat.zero_le _

theorem mem_outKeysOf_iff {pairs : List (String × String)} {n : String} :
    n ∈ outKeysOf pairs ↔ 0 < outDeg pairs n := by
  unfold outKeysOf outDeg
  rw [List.mem_dedup, List.mem_map]
  constructor
  · rintro ⟨q, hq, rfl⟩
    have h : 0 < pairs.countP (fun p => decide (p.1 = q.1)) :=
      List.countP_pos_iff.mpr ⟨q, hq, by simp⟩
    exact_mod_cast h
  · intro h
    have h' : 0 < pairs.countP (fun p => decide (p.1 = n)) := by exact_mod_cast h
    obtain ⟨q, hq, hqn⟩ := List.countP_pos_iff.mp h'
    simp only [decide_eq_true_eq] at hqn
    exact ⟨q, hq, hqn⟩

theorem mem_inKeysOf_iff {pairs : List (String × String)} {n : String} :
    n ∈ inKeysOf pairs ↔ 0 < inDeg pairs n := by
  unfold inKeysOf inDeg
  rw [List.mem_dedup, List.mem_map]
  constructor
  · rintro ⟨q, hq, rfl⟩
    have h : 0 < pairs.countP (fun p => decide (p.2 = q.2)) :=
      List.countP_pos_iff.mpr ⟨q, hq, by simp⟩
    exact_mod_cast h
  · intro h
    have h' : 0 < pairs.countP (fun p => decide (p.2 = n)) := by exact_mod_cast h
    obtain ⟨q, hq, hqn⟩ := List.countP_pos_iff.mp h'
    simp only [decide_eq_true_eq] at hqn
    exact ⟨q, hq, hqn⟩

theorem mem_nodesOf_iff {pairs : List (String × String)} {n : String} :
    n ∈ nodesOf pairs ↔ n ∈ outKeysOf pairs ∨ n ∈ inKeysOf pairs := by
  unfold nodesOf outKeysOf inKeysOf
  simp [List.mem_dedup, List.mem_append]

theorem length_filter_eq_of (l1 l2 : List String) (p : String → Bool)
    (h1 : l1.Nodup) (h2 : l2.Nodup)
    (hm : ∀ x, p x = true → (x ∈ l1 ↔ x ∈ l2)) :
    (l1.filter p).length = (l2.filter p).length := by
  rw [← List.toFinset_card_of_nodup (h1.filter p),
    ← List.toFinset_card_of_nodup (h2.filter p)]
  congr 1
  apply Finset.ext
  intro x
  simp only [List.mem_toFinset, List.mem_filter]
  constructor
  · rintro ⟨hx, hp⟩
    exact ⟨(hm x hp).mp hx, hp⟩
  · rintro ⟨hx, hp⟩
    exact ⟨(hm x hp).mpr hx, hp⟩

theorem startCount_eq (pairs : List (String × String)) :
    startCount pairs = ((outKeysOf pairs).filter
      (fun n => decide (outDeg pairs n - inDeg pairs n = 1))).length := by
  unfold startCount
  rw [List.countP_eq_length_filter]
  apply length_filter_eq_of _ _ _ (List.nodup_dedup _) (List.nodup_dedup _)
  intro x hp
  simp only [decide_eq_true_eq] at hp
  constructor
  · intro _
    apply mem_outKeysOf_iff.mpr
    have h2 := inDeg_nonneg pairs x
    omega
  · intro hx
    exact mem_nodesOf_iff.mpr (Or.inl hx)

theorem endCount_eq (pairs : List (String × String)) :
    endCount pairs = (inKeysOf pairs).countP
      (fun n => decide (inDeg pairs n - outDeg pairs n = 1)) := by
  unfold endCount
  rw [List.countP_eq_length_filter, List.countP_eq_length_filter]
  apply length_filter_eq_of _ _ _ (List.nodup_dedup _) (List.nodup_dedup _)
  intro x hp
  simp only [decide_eq_true_eq] at hp
  constructor
  · intro _
    apply mem_inKeysOf_iff.mpr
    have h2 := outDeg_nonneg pairs x
    omega
  · intro hx
    exact mem_nodesOf_iff.mpr (Or.inr hx)

theorem imbalance_split (pairs : List (String × String)) :
    (∃ n ∈ nodesOf pairs, outDeg pairs n - inDeg pairs n < -1 ∨
        1 < outDeg pairs n - inDeg pairs n) ↔
      (∃ n ∈ outKeysOf pairs, fspBad (outDeg pairs) (inDeg pairs) n) ∨
      (∃ n ∈ inKeysOf pairs, vepBad (outDeg pairs) (inDeg pairs) n) := by
  constructor
  · rintro ⟨n, hn, hb | hb⟩
    · right
      have ho := outDeg_nonneg pairs n
      refine ⟨n, mem_inKeysOf_iff.mpr (by omega), ?_⟩
      unfold vepBad
      omega
    · left
      have hi := inDeg_nonneg pairs n
      refine ⟨n, mem_outKeysOf_iff.mpr (by omega), ?_⟩
      unfold fspBad
      omega
  · rintro (⟨n, hn, hb⟩ | ⟨n, hn, hb⟩)
    · refine ⟨n, mem_nodesOf_iff.mpr (Or.inl hn), ?_⟩
      unfold fspBad at hb
      omega
    · refine ⟨n, mem_nodesOf_iff.mpr (Or.inr hn), ?_⟩
      unfold vepBad at hb
      omega

/-- C3: on a non-empty duplicate-free ticket list, the
different-starting-points error is returned exactly when the number of
start candidates (nodes with out − in = 1) is not exactly one, or some
node's degree imbalance exceeds 1 in absolute value, or the number of end
candidates (nodes with in − out = 1) is not exactly one. -/
theorem claim_C3 (pairs : List (String × String)) (hne : pairs ≠ [])
    (hnd : pairs.Nodup) :
    ReconstructItinerary (encodeTickets pairs) =
      .err .differentStartingPoints ↔
    (startCount pairs ≠ 1 ∨
      (∃ n ∈ nodesOf pairs, outDeg pairs n - inDeg pairs n < -1 ∨
        1 < outDeg pairs n - inDeg pairs n) ∨
      endCount pairs ≠ 1) := by
  unfold ReconstructItinerary ReconstructItineraryWith
  rw [if_neg (by simp [encodeTickets, List.length_eq_zero, hne])]
  rw [validateTickets_encode, if_pos hnd]
  simp only [toPairs_encode, pairsOf_eq (toPairs_encode pairs)]
  by_cases hF : (∃ n ∈ outKeysOf pairs, fspBad (outDeg pairs) (inDeg pairs) n) ∨
      ((outKeysOf pairs).filter
        (fun n => decide (outDeg pairs n - inDeg pairs n = 1))).length ≠ 1
  · simp only [findStartingPoint_eq, if_pos hF]
    apply iff_of_true trivial
    rcases hF with hb | hl
    · exact Or.inr (Or.inl (imbalance_split pairs |>.mpr (Or.inl hb)))
    · exact Or.inl (by rw [startCount_eq]; exact hl)
  · simp only [findStartingPoint_eq, if_neg hF]
    simp only [validateEndPoints_eq]
    by_cases hV : (∃ n ∈ inKeysOf pairs, vepBad (outDeg pairs) (inDeg pairs) n) ∨
      (inKeysOf pairs).countP
        (fun n => decide (inDeg pairs n - outDeg pairs n = 1)) ≠ 1
    · rw [if_pos (by
        rcases hV with hb | hc
        · exact Or.inl hb
        · exact Or.inr ⟨rfl, hc⟩)]
      apply iff_of_true (by simp)
      rcases hV with hb | hc
      · exact Or.inr (Or.inl (imbalance_split pairs |>.mpr (Or.inr hb)))
      · exact Or.inr (Or.inr (by rw [endCount_eq]; exact hc))
    · rw [if_neg (by
        rintro (hb | ⟨-, hc⟩)
        · exact hV (Or.inl hb)
        · exact hV (Or.inr hc))]
      push_neg at hF hV
      apply iff_of_false
      · by_cases hcyc : 2 ≤ (findPath ((List.filter
            (fun n => decide (outDeg pairs n - inDeg pairs n = 1))
            (outKeysOf pairs)).headD "") (buildGraph pairs)).length ∧
            (findPath ((List.filter
              (fun n => decide (outDeg pairs n - inDeg pairs n = 1))
              (outKeysOf pairs)).headD "") (buildGraph pairs)).headD "" =
            (findPath ((List.filter
              (fun n => decide (outDeg pairs n - inDeg pairs n = 1))
              (outKeysOf pairs)).headD "") (buildGraph pairs)).getLastD ""
        · rw [if_pos hcyc]
          simp
        · rw [if_neg hcyc]
          simp
      · rintro (hs | hb | he)
        · exact hs (by rw [startCount_eq]; exact hF.2)
        · rcases (imbalance_split pairs).mp hb with ⟨n, hn, h⟩ | ⟨n, hn, h⟩
          · exact hF.1 n hn h
          · exact hV.1 n hn h
        · exact he (by rw [endCount_eq]; exact hV.2)

/-- Witness for C3 at the four-ticket example (valid graph: both sides of
the iff are false). -/
theorem claim_C3_witness :
    ([("JFK", "SFO"), ("JFK", "ATL"), ("SFO", "ATL"), ("ATL", "JFK")] :
      List (String × String)) ≠ [] ∧
    ([("JFK", "SFO"), ("JFK", "ATL"), ("SFO", "ATL"), ("ATL", "JFK")] :
      List (String × String)).Nodup ∧
    (ReconstructItinerary
        (encodeTickets
          [("JFK", "SFO"), ("JFK", "ATL"), ("SFO", "ATL"), ("ATL", "JFK")]) =
        .err .differentStartingPoints ↔
      (startCount
          [("JFK", "SFO"), ("JFK", "ATL"), ("SFO", "ATL"), ("ATL", "JFK")] ≠ 1 ∨
        (∃ n ∈ nodesOf
            [("JFK", "SFO"), ("JFK", "ATL"), ("SFO", "ATL"), ("ATL", "JFK")],
          outDeg [("JFK", "SFO"), ("JFK", "ATL"), ("SFO", "ATL"), ("ATL", "JFK")] n -
              inDeg [("JFK", "SFO"), ("JFK", "ATL"), ("SFO", "ATL"), ("ATL", "JFK")] n < -1 ∨
            1 < outDeg [("JFK", "SFO"), ("JFK", "ATL"), ("SFO", "ATL"), ("ATL", "JFK")] n -
              inDeg [("JFK", "SFO"), ("JFK", "ATL"), ("SFO", "ATL"), ("ATL", "JFK")] n) ∨
        endCount
          [("JFK", "SFO"), ("JFK", "ATL"), ("SFO", "ATL"), ("ATL", "JFK")] ≠ 1)) :=
  ⟨by decide, by decide, claim_C3 _ (by decide) (by decide)⟩

theorem mem_insertDesc {a x : String} {l : List String} :
    x ∈ insertDesc a l ↔ x = a ∨ x ∈ l := by
  induction l with
  | nil => simp [insertDesc]
  | cons b bs ih =>
    by_cases hb : strLt b a = true
    · simp only [insertDesc, if_pos hb, List.mem_cons]
    · simp only [insertDesc, if_neg hb, List.mem_cons, ih]
      tauto

theorem pairwise_insertDesc {a : String} {l : List String}
    (h : l.Pairwise DescRel) : (insertDesc a l).Pairwise DescRel := by
  induction l with
  | nil => simp [insertDesc]
  | cons b bs ih =>
    rw [List.pairwise_cons] at h
    obtain ⟨hb_all, hbs⟩ := h
    by_cases hb : strLt b a = true
    · simp only [insertDesc, if_pos hb]
      rw [List.pairwise_cons]
      refine ⟨?_, List.pairwise_cons.mpr ⟨hb_all, hbs⟩⟩
      intro y hy
      rcases List.mem_cons.mp hy with rfl | hy'
      · exact Or.inl hb
      · rcases hb_all y hy' with hlt | rfl
        · exact Or.inl (strLt_trans hlt hb)
        · exact Or.inl hb
    · simp only [insertDesc, if_neg hb]
      rw [List.pairwise_cons]
      refine ⟨?_, ih hbs⟩
      intro y hy
      rcases mem_insertDesc.mp hy with heq | hy'
      · rw [heq]
        by_cases hab : strLt a b = true
        · exact Or.inl hab
        · exact Or.inr (strLt_eq_of_not
            (by simpa using hb) (by simpa using hab))
      · exact hb_all y hy'

theorem pairwise_sortDesc (l : List String) : (sortDesc l).Pairwise DescRel := by
  induction l with
  | nil => simp [sortDesc]
  | cons x xs ih => exact pairwise_insertDesc ih

theorem perm_insertDesc (a : String) (l : List String) :
    (insertDesc a l).Perm (a :: l) := by
  induction l with
  | nil => exact List.Perm.refl _
  | cons b bs ih =>
    by_cases hb : strLt b a = true
    · simp only [insertDesc, if_pos hb]
      exact List.Perm.refl _
    · simp only [insertDesc, if_neg hb]
      exact (ih.cons b).trans (List.Perm.swap a b bs)

theorem perm_sortDesc (l : List String) : (sortDesc l).Perm l := by
  induction l with
  | nil => exact List.Perm.refl _
  | cons x xs ih => exact (perm_insertDesc x (sortDesc xs)).trans (ih.cons x)

theorem mem_appendEdge {g : Graph} {s d : String} {p : String × List String}
    (hp : p ∈ appendEdge g s d) :
    p ∈ g ∨ (∃ q ∈ g, q.1 = s ∧ p = (q.1, q.2 ++ [d])) ∨ p = (s, [d]) := by
  induction g with
  | nil =>
    simp only [appendEdge, List.mem_singleton] at hp
    exact Or.inr (Or.inr hp)
  | cons q qs ih =>
    by_cases hq : q.1 = s
    · simp only [appendEdge, if_pos hq, List.mem_cons] at hp
      rcases hp with rfl | hp'
      · exact Or.inr (Or.inl ⟨q, List.mem_cons_self q qs, hq, rfl⟩)
      · exact Or.inl (List.mem_cons_of_mem q hp')
    · simp only [appendEdge, if_neg hq, List.mem_cons] at hp
      rcases hp with rfl | hp'
      · exact Or.inl (List.mem_cons_self p qs)
      · rcases ih hp' with hin | ⟨q', hq', hk, he⟩ | he
        · exact Or.inl (List.mem_cons_of_mem q hin)
        · exact Or.inr (Or.inl ⟨q', List.mem_cons_of_mem q hq', hk, he⟩)
        · exact Or.inr (Or.inr he)

theorem appendEdge_count {done : List (String × String)} {g : Graph}
    (pr : String × String)
    (hg : ∀ k v, (k, v) ∈ g → ∀ d, v.countP (fun x => decide (x = d)) ≤
      done.countP (fun q => decide (q = (k, d)))) :
    ∀ k v, (k, v) ∈ appendEdge g pr.1 pr.2 → ∀ d,
      v.countP (fun x => decide (x = d)) ≤
        (done ++ [pr]).countP (fun q => decide (q = (k, d))) := by
  intro k v hp d
  rw [List.countP_append]
  rcases mem_appendEdge hp with hin | ⟨q, hq, hkey, heq⟩ | heq
  · have := hg k v hin d
    omega
  · rw [Prod.mk.injEq] at heq
    obtain ⟨hk, hv⟩ := heq
    subst hk
    subst hv
    rw [List.countP_append]
    have hbase := hg q.1 q.2 (by simpa using hq) d
    by_cases hd : pr.2 = d
    · have hpr : pr = (q.1, d) := by rw [hkey, ← hd]
      have h1 : ([pr.2].countP (fun x => decide (x = d))) = 1 := by simp [hd]
      have h2 : ([pr].countP (fun q' => decide (q' = (q.1, d)))) = 1 := by
        simp [← hpr]
      omega
    · have h1 : ([pr.2].countP (fun x => decide (x = d))) = 0 := by simp [hd]
      omega
  · rw [Prod.mk.injEq] at heq
    obtain ⟨hk, hv⟩ := heq
    subst hk
    subst hv
    by_cases hd : pr.2 = d
    · have hpr : pr = (pr.1, d) := by rw [← hd]
      have h2 : ([pr].countP (fun q' => decide (q' = (pr.1, d)))) = 1 := by
        simp [← hpr]
      have h1 : ([pr.2].countP (fun x => decide (x = d))) = 1 := by simp [hd]
      omega
    · have h1 : ([pr.2].countP (fun x => decide (x = d))) = 0 := by simp [hd]
      omega

theorem buildAdj_count (pairs : List (String × String)) :
    ∀ k v, (k, v) ∈ buildAdj pairs → ∀ d,
      v.countP (fun x => decide (x = d)) ≤
        pairs.countP (fun q => decide (q = (k, d))) := by
  suffices h : ∀ (rest done : List (String × String)) (g : Graph),
      (∀ k v, (k, v) ∈ g → ∀ d, v.countP (fun x => decide (x = d)) ≤
        done.countP (fun q => decide (q = (k, d)))) →
      ∀ k v, (k, v) ∈ rest.foldl (fun g q => appendEdge g q.1 q.2) g → ∀ d,
        v.countP (fun x => decide (x = d)) ≤
          (done ++ rest).countP (fun q => decide (q = (k, d))) by
    intro k v hp d
    have := h pairs [] [] (by simp) k v (by simpa [buildAdj] using hp) d
    simpa using this
  intro rest
  induction rest with
  | nil =>
    intro done g hg k v hp d
    simpa using hg k v hp d
  | cons pr rest' ih =>
    intro done g hg k v hp d
    have hstep := appendEdge_count pr hg
    have := ih (done ++ [pr]) (appendEdge g pr.1 pr.2) hstep k v
      (by simpa using hp) d
    simpa [List.append_assoc] using this

theorem buildGraph_adj_nodup {pairs : List (String × String)}
    (hnd : pairs.Nodup) : ∀ p ∈ buildGraph pairs, p.2.Nodup := by
  intro p hp
  unfold buildGraph at hp
  obtain ⟨q, hq, rfl⟩ := List.mem_map.mp hp
  have hqn : q.2.Nodup := nodup_iff_countP_le_one.mpr (fun d =>
    le_trans (buildAdj_count pairs q.1 q.2 (by simpa using hq) d)
      (nodup_iff_countP_le_one.mp hnd (q.1, d)))
  exact (perm_sortDesc q.2).nodup_iff.mpr hqn

theorem buildGraph_strict {pairs : List (String × String)}
    (hnd : pairs.Nodup) : GraphStrictDesc (buildGraph pairs) := by
  intro p hp
  have hnodup : p.2.Nodup := buildGraph_adj_nodup hnd p hp
  have hsorted : p.2.Pairwise DescRel := by
    unfold buildGraph at hp
    obtain ⟨q, hq, rfl⟩ := List.mem_map.mp hp
    exact pairwise_sortDesc q.2
  have hcomb := hsorted.and hnodup
  exact hcomb.imp (fun {a b} hab => by
    rcases hab with ⟨hr | rfl, hne⟩
    · exact hr
    · exact absurd rfl hne)

theorem listMin_mem : ∀ {l : List String}, l ≠ [] → listMin l ∈ l := by
  intro l
  induction l with
  | nil => intro h; exact absurd rfl h
  | cons x xs ih =>
    intro _
    cases xs with
    | nil => simp [listMin]
    | cons y t =>
      simp only [listMin, minStr]
      by_cases hm : strLt (listMin (y :: t)) x = true
      · rw [if_pos hm]
        exact List.mem_cons_of_mem x (ih (by simp))
      · rw [if_neg hm]
        exact List.mem_cons_self x (y :: t)

theorem getLastD_cons_ne {l : List String} (h : l ≠ []) (x d : String) :
    (x :: l).getLastD d = l.getLastD d := by
  cases l with
  | nil => exact absurd rfl h
  | cons y ys => rfl

theorem strictdesc_getLastD {l : List String}
    (hs : l.Pairwise (fun a b => strLt b a = true)) (hne : l ≠ []) :
    l.getLastD "" = listMin l := by
  induction l with
  | nil => exact absurd rfl hne
  | cons x xs ih =>
    cases xs with
    | nil => rfl
    | cons y t =>
      rw [List.pairwise_cons] at hs
      obtain ⟨hx_all, hxs⟩ := hs
      have hm : listMin (y :: t) ∈ y :: t := listMin_mem (by simp)
      have hlt : strLt (listMin (y :: t)) x = true := hx_all _ hm
      rw [getLastD_cons_ne (by simp) x "", ih hxs (by simp)]
      simp only [listMin, minStr]
      rw [if_pos hlt]

theorem strictdesc_dropLast {l : List String}
    (hs : l.Pairwise (fun a b => strLt b a = true)) (hne : l ≠ []) :
    l.dropLast = eraseFirst l (listMin l) := by
  induction l with
  | nil => exact absurd rfl hne
  | cons x xs ih =>
    cases xs with
    | nil => simp [listMin, eraseFirst]
    | cons y t =>
      rw [List.pairwise_cons] at hs
      obtain ⟨hx_all, hxs⟩ := hs
      have hm : listMin (y :: t) ∈ y :: t := listMin_mem (by simp)
      have hlt : strLt (listMin (y :: t)) x = true := hx_all _ hm
      have hxm : x ≠ listMin (y :: t) := by
        intro he
        rw [← he] at hlt
        simp [strLt_irrefl] at hlt
      have hmin : listMin (x :: y :: t) = listMin (y :: t) := by
        simp only [listMin, minStr]
        rw [if_pos hlt]
      rw [hmin]
      calc (x :: y :: t).dropLast = x :: (y :: t).dropLast := rfl
        _ = x :: eraseFirst (y :: t) (listMin (y :: t)) := by
            rw [ih hxs (by simp)]
        _ = eraseFirst (x :: y :: t) (listMin (y :: t)) := by
            simp only [eraseFirst, if_neg hxm]

theorem lookupG_pairwise {g : Graph} (k : String) (hs : GraphStrictDesc g) :
    (lookupG g k).Pairwise (fun a b => strLt b a = true) := by
  induction g with
  | nil => simp [lookupG]
  | cons p ps ih =>
    simp only [lookupG]
    by_cases hk : p.1 = k
    · rw [if_pos hk]
      exact hs p (List.mem_cons_self p ps)
    · rw [if_neg hk]
      exact ih (fun q hq => hs q (List.mem_cons_of_mem p hq))

theorem mem_updateG {g : Graph} {k : String} {v : List String}
    {p : String × List String} (hp : p ∈ updateG g k v) :
    p ∈ g ∨ p = (k, v) := by
  induction g with
  | nil => simp [updateG] at hp
  | cons q qs ih =>
    by_cases hq : q.1 = k
    · simp only [updateG, if_pos hq, List.mem_cons] at hp
      rcases hp with rfl | hp'
      · exact Or.inr rfl
      · exact Or.inl (List.mem_cons_of_mem q hp')
    · simp only [updateG, if_neg hq, List.mem_cons] at hp
      rcases hp with rfl | hp'
      · exact Or.inl (List.mem_cons_self p qs)
      · rcases ih hp' with h | h
        · exact Or.inl (List.mem_cons_of_mem q h)
        · exact Or.inr h

theorem graphStrict_updateG {g : Graph} {k : String} {v : List String}
    (hs : GraphStrictDesc g)
    (hv : v.Pairwise (fun a b => strLt b a = true)) :
    GraphStrictDesc (updateG g k v) := by
  intro p hp
  rcases mem_updateG hp with h | rfl
  · exact hs p h
  · exact hv

theorem walkMinLoopF_cons (fuel : Nat) (g : Graph) (curr : String)
    (rest res : List String) :
    walkMinLoopF (fuel + 1) g (curr :: rest) res =
      (if lookupG g curr ≠ [] then
        walkMinLoopF fuel
          (updateG g curr (eraseFirst (lookupG g curr) (listMin (lookupG g curr))))
          (listMin (lookupG g curr) :: curr :: rest) res
      else
        walkMinLoopF fuel g rest (res ++ [curr])).map
        (fun r => (r.1, r.2.1, r.2.2 + 1)) := rfl

theorem walkLoopF_eq_min : ∀ (fuel : Nat) {g : Graph} {stack res : List String},
    GraphStrictDesc g →
    walkLoopF fuel g stack res = walkMinLoopF fuel g stack res := by
  intro fuel
  induction fuel with
  | zero => intro g stack res _; rfl
  | succ f ih =>
    intro g stack res hs
    match stack with
    | [] => rfl
    | curr :: rest =>
      rw [walkLoopF_cons, walkMinLoopF_cons]
      by_cases hd : lookupG g curr ≠ []
      · rw [if_pos hd, if_pos hd]
        have hpw := lookupG_pairwise curr hs
        rw [strictdesc_getLastD hpw hd, strictdesc_dropLast hpw hd]
        have hv : (eraseFirst (lookupG g curr)
            (listMin (lookupG g curr))).Pairwise
            (fun a b => strLt b a = true) := by
          rw [← strictdesc_dropLast hpw hd]
          exact hpw.sublist (List.dropLast_sublist _)
        rw [ih (graphStrict_updateG hs hv)]
      · rw [if_neg hd, if_neg hd, ih hs]

theorem findPath_eq_min {g : Graph} (hs : GraphStrictDesc g) (s : String) :
    findPath s g = findPathMin s g := by
  unfold findPath findPathMin
  rw [walkLoopF_eq_min _ hs]

/-- C2, counterexample part: on the four-ticket reference input the
returned trail takes the lexicographically smaller destination (ATL, not
SFO) at JFK's choice point, and it is byte-wise smaller than another valid
Eulerian trail from the same start — so the code does not prefer larger
destinations and does not return the lexicographically greatest trail. -/
theorem claim_C2_counterexample :
    ReconstructItinerary
        [["JFK", "SFO"], ["JFK", "ATL"], ["SFO", "ATL"], ["ATL", "JFK"]] =
      .ok ["JFK", "ATL", "JFK", "SFO", "ATL"] ∧
    IsTrailOf [("JFK", "SFO"), ("JFK", "ATL"), ("SFO", "ATL"), ("ATL", "JFK")]
      ["JFK", "SFO", "ATL", "JFK", "ATL"] ∧
    (["JFK", "SFO", "ATL", "JFK", "ATL"] : List String).headD "" = "JFK" ∧
    listLexLt ["JFK", "ATL", "JFK", "SFO", "ATL"]
      ["JFK", "SFO", "ATL", "JFK", "ATL"] = true :=
  ⟨by decide, by decide, by decide, by decide⟩

/-- C2 (amended): the walk prefers the lexicographically SMALLER
next-destination at every point where a choice among remaining outgoing
edges exists — the whole pipeline is extensionally equal to one whose walk
explicitly consumes the smallest remaining destination (`listMin`) of the
top node at every step. -/
theorem claim_C2 (tickets : List (List String)) :
    ReconstructItinerary tickets = ReconstructItineraryMin tickets := by
  unfold ReconstructItinerary ReconstructItineraryWith ReconstructItineraryMin
  by_cases hz : tickets.length = 0
  · rw [if_pos hz, if_pos hz]
  · rw [if_neg hz, if_neg hz]
    cases hval : validateTickets tickets with
    | none => rfl
    | some ve =>
      cases ve with
      | error e => rfl
      | ok u =>
        cases u
        cases hps : toPairs tickets with
        | none => rfl
        | some ps =>
          have hnd : ps.Nodup := by
            obtain ⟨ps', hps', hnd', -⟩ := validateLoop_ok_nodup hval
            rw [hps] at hps'
            obtain rfl := Option.some.inj hps'
            exact hnd'
          simp only [pairsOf_eq hps,
            show ∀ s, findPath s (buildGraph ps) =
                findPathMin s (buildGraph ps) from
              fun s => findPath_eq_min (buildGraph_strict hnd) s]

end Dispatcher
